import Mathlib

/-!
# Verification of the Describing-Data notebooks' own helper code

The repository consists of three Jupyter notebooks whose own code is:
a text-cleaning utility `text_cleaner` (regex substitutions), the helper
functions `word_topic` and `top_words` of the newsgroups notebook, and the
synthetic-data / model-comparison cells of the dimensionality-reduction
notebook.  This file gives a shallow embedding of that code over `List Char`
(strings) and `List (List ℚ)` (matrices) and proves the specification
claims about it.

Conventions of the embedding:
* Python strings are `List Char`; Python floats are `ℚ`.
* `re.sub` calls are embedded as left-to-right, non-overlapping scanning
  functions that mirror the Python regex semantics (in particular `.` does
  not match a newline).
* Library calls (sklearn fits, RNG draws) are abstracted as parameters of
  the embedded notebook cells; the repository's own glue around them is
  embedded faithfully.
-/

namespace DescribingData

/-! ## `text_cleaner` (4.4.4+Unsupervised+Neural+Networks+and+NLP.ipynb)

```python
def text_cleaner(text):
    text = re.sub(r'--',' ',text)
    text = re.sub("[\[].*?[\]]", "", text)
    text = re.sub(r'Chapter \d+','',text)
    text = ' '.join(text.split())
    return text
```
-/

/-- Step 1, `re.sub(r'--', ' ', text)`: scan left to right, replacing each
non-overlapping occurrence of `--` by one space. -/
def replaceDashes : List Char → List Char
  | [] => []
  | [c] => [c]
  | a :: b :: rest =>
    if a = '-' ∧ b = '-' then ' ' :: replaceDashes rest
    else a :: replaceDashes (b :: rest)

/-- Step 2, `re.sub("[\[].*?[\]]", "", text)`: from each `[` the non-greedy
`.*?` runs to the first `]`, and `.` does not match `\n`.  The scanner keeps
a buffer (in reverse) of the characters seen since the pending `[`:
reaching `]` deletes the whole group; reaching `\n` or the end of the input
means no match could start at the pending `[` (nor at any position inside
the buffer, every later `]` being beyond the newline or absent), so the
buffered text is emitted verbatim. -/
def dropBracketsGo : Option (List Char) → List Char → List Char
  | none, [] => []
  | none, c :: rest =>
    if c = '[' then dropBracketsGo (some []) rest
    else c :: dropBracketsGo none rest
  | some buf, [] => '[' :: buf.reverse
  | some buf, c :: rest =>
    if c = ']' then dropBracketsGo none rest
    else if c = '\n' then '[' :: buf.reverse ++ '\n' :: dropBracketsGo none rest
    else dropBracketsGo (some (c :: buf)) rest

def dropBrackets (l : List Char) : List Char := dropBracketsGo none l

/-- Step 3, `re.sub(r'Chapter \d+', '', text)`: the flag records whether the
scanner is currently consuming the (greedy) `\d+` of a match.  A match needs
the literal `Chapter ` followed by at least one digit; on failure the scan
resumes at the next character, as `re.sub` does. -/
def dropChapterGo : Bool → List Char → List Char
  | _, [] => []
  | _, 'C' :: 'h' :: 'a' :: 'p' :: 't' :: 'e' :: 'r' :: ' ' :: d :: rest' =>
    if d.isDigit then dropChapterGo true rest'
    else 'C' :: dropChapterGo false ('h' :: 'a' :: 'p' :: 't' :: 'e' :: 'r' :: ' ' :: d :: rest')
  | skip, c :: rest =>
    if skip && c.isDigit then dropChapterGo true rest
    else c :: dropChapterGo false rest

def dropChapter (l : List Char) : List Char := dropChapterGo false l

/-- The whitespace characters `str.split()` splits on (the ASCII ones). -/
def pyWhitespace (c : Char) : Bool :=
  c = ' ' || c = '\t' || c = '\n' || c = '\r' || c = '\x0b' || c = '\x0c'

/-- `text.split()`: maximal whitespace-free tokens, empty tokens dropped.
The accumulator holds the current token in reverse. -/
def splitGo : List Char → List Char → List (List Char)
  | buf, [] => if buf.isEmpty then [] else [buf.reverse]
  | buf, c :: rest =>
    if pyWhitespace c then
      if buf.isEmpty then splitGo [] rest else buf.reverse :: splitGo [] rest
    else splitGo (c :: buf) rest

def pySplit (l : List Char) : List (List Char) := splitGo [] l

/-- `' '.join(tokens)`. -/
def joinWords : List (List Char) → List Char
  | [] => []
  | [w] => w
  | w :: ws => w ++ ' ' :: joinWords ws

/-- `text_cleaner`, the composition of the four steps in source order. -/
def text_cleaner (text : List Char) : List Char :=
  joinWords (pySplit (dropChapter (dropBrackets (replaceDashes text))))

/-- Bracket deletion as the specification claim words it (a second
definition written from the claim's words, for comparison with the
source-derived `dropBrackets`): delete every minimal substring that starts
with `[` and ends with `]`, with no restriction on the characters in
between — in particular a newline may stand between the brackets. -/
def claimBracketsGo : Option (List Char) → List Char → List Char
  | none, [] => []
  | none, c :: rest =>
    if c = '[' then claimBracketsGo (some []) rest
    else c :: claimBracketsGo none rest
  | some buf, [] => '[' :: buf.reverse
  | some buf, c :: rest =>
    if c = ']' then claimBracketsGo none rest
    else claimBracketsGo (some (c :: buf)) rest

def claimBrackets (l : List Char) : List Char := claimBracketsGo none l

/-- The cleaning pipeline exactly as the specification claim describes it:
steps (1), (3) and (4) as in the source, but step (2) reading "delete every
minimal (non-greedy) substring that starts with `[` and ends with `]`"
with no newline restriction. -/
def text_cleaner_claimed (text : List Char) : List Char :=
  joinWords (pySplit (dropChapter (claimBrackets (replaceDashes text))))

/-- Bracket deletion described directly ("declaratively"), with the newline
restriction the Python regex actually has: at each `[`, scan forward
stopping at the first `]` or newline; if a `]` is reached the whole group
through it is deleted, otherwise the `[` is kept and scanning resumes after
it. -/
def dropBracketsSpec : List Char → List Char
  | [] => []
  | c :: rest =>
    if c = '[' ∧ (rest.dropWhile fun ch => ch != ']' && ch != '\n').head? = some ']' then
      dropBracketsSpec (rest.dropWhile fun ch => ch != ']' && ch != '\n').tail
    else c :: dropBracketsSpec rest
termination_by l => l.length
decreasing_by
  · have h1 : (rest.dropWhile fun ch => ch != ']' && ch != '\n').length ≤ rest.length :=
      (List.dropWhile_sublist _).length_le
    simp only [List.length_tail, List.length_cons]
    omega
  · simp only [List.length_cons]
    omega

/-- Boolean scan: does the list contain two consecutive whitespace
characters? -/
def hasDoubleWs : List Char → Bool
  | a :: b :: r => (pyWhitespace a && pyWhitespace b) || hasDoubleWs (b :: r)
  | _ => false

/-- No leading whitespace character. -/
def noLeadingWs (l : List Char) : Bool :=
  match l.head? with
  | some c => !pyWhitespace c
  | none => true

/-- No trailing whitespace character. -/
def noTrailingWs (l : List Char) : Bool :=
  match l.getLast? with
  | some c => !pyWhitespace c
  | none => true

/-! ## `word_topic` and `top_words` (Newsgroups.ipynb)

```python
def word_topic(tfidf,solution, wordlist):
    words_by_topic=tfidf.T * solution            # sparse *, i.e. matrix product
    components=pd.DataFrame(words_by_topic,index=wordlist)
    return components

def top_words(components, n_top_words):
    n_topics = range(components.shape[1])
    index= np.repeat(n_topics, n_top_words, axis=0)
    topwords=pd.Series(index=index)
    for column in range(components.shape[1]):
        sortedwords=components.iloc[:,column].sort_values(ascending=False)
        chosen=sortedwords[:n_top_words]
        chosenlist=chosen.index +" "+round(chosen,2).map(str)
        topwords.loc[column]=chosenlist
    return(topwords)
```
-/

/-- Matrices as lists of rows. -/
abbrev Mat := List (List ℚ)

/-- `m.shape[1]` as pandas/numpy infer it from a list of rows. -/
def ncolsOf (m : Mat) : ℕ := (m.headD []).length

/-- `m.T`. -/
def transpose (m : Mat) : Mat :=
  (List.range (ncolsOf m)).map fun j => m.map fun r => r.getD j 0

def dot (r c : List ℚ) : ℚ := (List.zipWith (· * ·) r c).sum

/-- Matrix product, `a * b` for (sparse) matrices. -/
def matMul (a b : Mat) : Mat :=
  a.map fun row => (transpose b).map fun col => dot row col

/-- `pd.DataFrame(values, index=labels)`: a value matrix with row labels. -/
structure DataFrame where
  rows : Mat
  index : List (List Char)

def word_topic (tfidf solution : Mat) (wordlist : List (List Char)) : DataFrame :=
  { rows := matMul (transpose tfidf) solution, index := wordlist }

def dfNcols (df : DataFrame) : ℕ := ncolsOf df.rows

/-- `components.iloc[:, j]`: the `j`-th column as a label-value Series. -/
def colPairs (df : DataFrame) (j : ℕ) : List (List Char × ℚ) :=
  df.index.zip (df.rows.map fun r => r.getD j 0)

/-- `Series.sort_values(ascending=False)`: sort by value, largest first.
pandas' default quicksort leaves the relative order of tied values
unspecified; the embedding fixes a concrete order (a stable sort), which no
claim depends on. -/
def sortColumn (s : List (List Char × ℚ)) : List (List Char × ℚ) :=
  s.insertionSort fun a b => b.2 ≤ a.2

instance : IsTotal (List Char × ℚ) fun a b => b.2 ≤ a.2 :=
  ⟨fun a b => le_total b.2 a.2⟩

instance : IsTrans (List Char × ℚ) fun a b => b.2 ≤ a.2 :=
  ⟨fun _ _ _ h1 h2 => le_trans h2 h1⟩

/-- `round(x, 2)`: Python rounds ties to even. -/
def roundHalfEven (q : ℚ) : ℤ :=
  if q - ⌊q⌋ < 1 / 2 then ⌊q⌋
  else if 1 / 2 < q - ⌊q⌋ then ⌊q⌋ + 1
  else if ⌊q⌋ % 2 = 0 then ⌊q⌋ else ⌊q⌋ + 1

def round2 (q : ℚ) : ℚ := (roundHalfEven (100 * q) : ℚ) / 100

/-- `str(x)` for a float already rounded to two decimals: integer part,
then `.0` for a whole number, one fractional digit when the second is zero,
else two fractional digits (Python's shortest-repr printing). -/
def ratStr2 (q : ℚ) : List Char :=
  let a : ℚ := |q|
  let ip : ℕ := (⌊a⌋).toNat
  let cents : ℕ := (⌊a * 100⌋).toNat % 100
  let frac : List Char :=
    if cents = 0 then ['.', '0']
    else if cents % 10 = 0 then '.' :: Nat.toDigits 10 (cents / 10)
    else '.' :: (if cents < 10 then '0' :: Nat.toDigits 10 cents else Nat.toDigits 10 cents)
  (if q < 0 then ['-'] else []) ++ Nat.toDigits 10 ip ++ frac

/-- `chosen.index + " " + round(chosen,2).map(str)`, for one entry. -/
def fmtEntry (w : List Char) (v : ℚ) : List Char :=
  w ++ ' ' :: ratStr2 (round2 v)

/-- The `chosenlist` of one loop iteration of `top_words`. -/
def topWordsCol (df : DataFrame) (n j : ℕ) : List (List Char) :=
  ((sortColumn (colPairs df j)).take n).map fun p => fmtEntry p.1 p.2

/-- `top_words` as the final Series: `np.repeat(range(ncols), n)` gives one
block of `n` index slots per column, in ascending column order, and
`topwords.loc[column] = chosenlist` fills column `column`'s block, in
order.  The Series is embedded as its (index label, value) pairs. -/
def top_words (components : DataFrame) (n_top_words : ℕ) : List (ℕ × List Char) :=
  (List.range (dfNcols components)).flatMap fun j =>
    (topWordsCol components n_top_words j).map fun s => (j, s)

/-! ## Newsgroups notebook cells using the helpers

Each of the three models is handled by the same two lines
(`components_* = word_topic(news_train_tfidf, news_train_*, vocabulary)`
followed by `topwords[...] = top_words(components_*, n_top_words)`), with
`n_top_words = 10` and every model built with `ntopics = 8` components.
The tf-idf matrix, the vocabulary and each model's `fit_transform` output
are runtime library data, so they are parameters of the embedded cells. -/

def nb_n_top_words : ℕ := 10

def nb_ntopics : ℕ := 8

def topwords_LSA (news_train_tfidf : Mat) (vocabulary : List (List Char))
    (news_train_lsa : Mat) : List (ℕ × List Char) :=
  top_words (word_topic news_train_tfidf news_train_lsa vocabulary) nb_n_top_words

def topwords_LDA (news_train_tfidf : Mat) (vocabulary : List (List Char))
    (news_train_lda : Mat) : List (ℕ × List Char) :=
  top_words (word_topic news_train_tfidf news_train_lda vocabulary) nb_n_top_words

def topwords_NNMF (news_train_tfidf : Mat) (vocabulary : List (List Char))
    (news_train_nmf : Mat) : List (ℕ × List Char) :=
  top_words (word_topic news_train_tfidf news_train_nmf vocabulary) nb_n_top_words

/-! ## Mutation model for the frame claim

pandas' `Series.sort_values` has an `inplace` flag; the call in `top_words`
leaves it at its default `False`.  To state the frame claim, the calls that
could mutate are embedded with explicit state passing: `sortValues` returns
the sorted copy together with the state of the receiver after the call, and
the loop of `top_words` threads the DataFrame through every iteration,
writing the post-call column state back into it. -/

def sortValues (s : List (List Char × ℚ)) (ascending : Bool) (inplace : Bool) :
    List (List Char × ℚ) × List (List Char × ℚ) :=
  let sorted :=
    if ascending then s.insertionSort fun a b => a.2 ≤ b.2
    else s.insertionSort fun a b => b.2 ≤ a.2
  (sorted, if inplace then sorted else s)

/-- Write a column's (label, value) Series back into the DataFrame. -/
def setCol (df : DataFrame) (j : ℕ) (col : List (List Char × ℚ)) : DataFrame :=
  { rows := df.rows.zipWith (fun r q => r.set j q.2) col, index := df.index }

/-- One loop iteration of `top_words`, with the receiver DataFrame state
after the iteration. -/
def topWordsColSt (df : DataFrame) (n j : ℕ) : List (List Char) × DataFrame :=
  let s := colPairs df j
  let res := sortValues s false false
  (((res.1).take n).map fun q => fmtEntry q.1 q.2, setCol df j res.2)

/-- `top_words` with explicit state passing for its `components` argument. -/
def top_words_st (df : DataFrame) (n : ℕ) : List (ℕ × List Char) × DataFrame :=
  (List.range (dfNcols df)).foldl
    (fun acc j =>
      let r := topWordsColSt acc.2 n j
      (acc.1 ++ r.1.map fun s => (j, s), r.2))
    ([], df)

/-- `word_topic` with explicit state passing: the body (`'.T'`, sparse `*`
and the `DataFrame` constructor) contains no store to its arguments, so the
post-call state of the three inputs is built unchanged. -/
def word_topic_st (tfidf solution : Mat) (wordlist : List (List Char)) :
    DataFrame × (Mat × Mat × List (List Char)) :=
  (word_topic tfidf solution wordlist, (tfidf, solution, wordlist))

end DescribingData

namespace DimRed

open DescribingData

/-! ## Dimensionality_reduction.ipynb

```python
n = 1000
p = 10
X = np.random.normal(size=n * p).reshape((n, p))
y = X[:, 0] + 2 * X[:, 1] + np.random.normal(size=n * 1) + 5
regr = linear_model.LinearRegression()
regr.fit(X, y)
Y_pred = regr.predict(X)
print('R-squared regression:', regr.score(X, y))
pls1 = PLSRegression(n_components=3)
pls1.fit(X, y)
Y_PLS_pred = pls1.predict(X)
print('R-squared PLSR:', pls1.score(X, y))
```

The two `np.random.normal(loc=0, scale=1, size=...)` draws and the two
sklearn fits are library behaviour; they enter the embedding as parameters
(`draws`, `noise`, `fitLR`, `fitPLS`).  A fitted sklearn regressor is
abstracted as the prediction function it defines, and `.score(X, y)` is
the R-squared of the predictions on `X` against `y`, which is what both
`LinearRegression.score` and `PLSRegression.score` compute. -/

def n : ℕ := 1000

def p : ℕ := 10

/-- `l.reshape((rows, cols))`, row-major. -/
def reshape (rows cols : ℕ) (l : List ℚ) : Mat :=
  (List.range rows).map fun i => (l.drop (i * cols)).take cols

/-- `X = np.random.normal(size=n * p).reshape((n, p))`. -/
def makeX (draws : List ℚ) : Mat := reshape n p draws

/-- `y = X[:, 0] + 2 * X[:, 1] + np.random.normal(size=n * 1) + 5`. -/
def makeY (X : Mat) (noise : List ℚ) : List ℚ :=
  X.zipWith (fun row e => row.getD 0 0 + 2 * row.getD 1 0 + e + 5) noise

/-- A fitted regressor, abstracted as what `fit(X, y)` returns: a
prediction function. -/
abbrev Fitter := Mat → List ℚ → (Mat → List ℚ)

/-- `r2_score`: `1 - Σ(y - ŷ)² / Σ(y - ȳ)²`. -/
def r2_score (yTrue yPred : List ℚ) : ℚ :=
  let m := yTrue.sum / yTrue.length
  1 - (List.zipWith (fun a b => (a - b) ^ 2) yTrue yPred).sum
      / (yTrue.map fun a => (a - m) ^ 2).sum

/-- The model-comparison cell: generate `X` and `y`, fit OLS on all of `X`,
fit PLS with `n_components=3` on the same `(X, y)`, and return the pair of
printed R-squared scores. -/
def dimRedCell (fitLR : Fitter) (fitPLS : ℕ → Fitter) (draws noise : List ℚ) : ℚ × ℚ :=
  let X := makeX draws
  let y := makeY X noise
  let regr := fitLR X y
  let pls1 := fitPLS 3 X y
  (r2_score y (regr X), r2_score y (pls1 X))

end DimRed

namespace DescribingData

/-! ## Lemmas about the bracket-deletion scanner -/

theorem dropWhile_append_of_pos {p : Char → Bool} :
    ∀ {z w : List Char}, (∀ c ∈ z, p c = true) →
      (z ++ w).dropWhile p = w.dropWhile p
  | [], _, _ => rfl
  | a :: z, w, h => by
    rw [List.cons_append, List.dropWhile_cons_of_pos (h a (List.mem_cons_self a z))]
    exact dropWhile_append_of_pos fun c hc => h c (List.mem_cons_of_mem a hc)

/-- With no `]` in sight, the declarative bracket deletion deletes
nothing. -/
theorem dropBracketsSpec_of_no_close :
    ∀ {z : List Char}, (∀ c ∈ z, c ≠ ']') → dropBracketsSpec z = z := by
  intro z
  induction z using dropBracketsSpec.induct with
  | case1 =>
    intro _
    rw [dropBracketsSpec]
  | case2 c rest h _ =>
    intro hz
    exfalso
    have hmem : ']' ∈ rest.dropWhile fun ch => ch != ']' && ch != '\n' := by
      rcases hw : rest.dropWhile fun ch => ch != ']' && ch != '\n' with _ | ⟨a, t⟩
      · rw [hw] at h
        simp at h
      · rw [hw] at h
        simp only [List.head?_cons, Option.some.injEq] at h
        rw [h.2]
        exact List.mem_cons_self _ _
    exact hz ']' (List.mem_cons_of_mem c (List.dropWhile_subset _ hmem)) rfl
  | case3 c rest h ih =>
    intro hz
    rw [dropBracketsSpec]
    rw [if_neg h, ih fun a ha => hz a (List.mem_cons_of_mem c ha)]

/-- A newline shields everything before it: characters that are neither
`]` nor `\n` pass through the declarative bracket deletion verbatim up to
the next newline. -/
theorem dropBracketsSpec_append_newline :
    ∀ (z rest : List Char), (∀ c ∈ z, c ≠ ']' ∧ c ≠ '\n') →
      dropBracketsSpec (z ++ '\n' :: rest) = z ++ '\n' :: dropBracketsSpec rest := by
  intro z
  induction z with
  | nil =>
    intro rest _
    rw [List.nil_append, dropBracketsSpec, if_neg]
    · rfl
    · rintro ⟨hc, -⟩
      exact absurd hc (by decide)
  | cons a z ih =>
    intro rest hz
    have hneg : ¬(a = '[' ∧
        ((z ++ '\n' :: rest).dropWhile fun ch => ch != ']' && ch != '\n').head? = some ']') := by
      rintro ⟨-, hhead⟩
      rw [dropWhile_append_of_pos (fun c hc => by
        simp [(hz c (List.mem_cons_of_mem a hc)).1, (hz c (List.mem_cons_of_mem a hc)).2])] at hhead
      rw [List.dropWhile_cons_of_neg (by decide)] at hhead
      simp at hhead
    rw [List.cons_append, dropBracketsSpec, if_neg hneg,
      ih rest fun c hc => hz c (List.mem_cons_of_mem a hc)]
    simp

theorem dropBracketsGo_none_nil : dropBracketsGo none [] = dropBracketsSpec [] := by
  rw [dropBracketsSpec]
  rfl

theorem dropBracketsGo_some_nil (buf : List Char) (hbuf : ∀ c ∈ buf, c ≠ ']' ∧ c ≠ '\n') :
    dropBracketsGo (some buf) [] = dropBracketsSpec ('[' :: (buf.reverse ++ [])) := by
  have hrev : ∀ c ∈ buf.reverse, c ≠ ']' ∧ c ≠ '\n' := fun c hc =>
    hbuf c (List.mem_reverse.mp hc)
  rw [List.append_nil, dropBracketsSpec, if_neg, dropBracketsSpec_of_no_close fun c hc => (hrev c hc).1]
  · rfl
  · rintro ⟨-, hhead⟩
    have : buf.reverse.dropWhile (fun ch => ch != ']' && ch != '\n') =
        ([] : List Char).dropWhile fun ch => ch != ']' && ch != '\n' := by
      rw [← List.append_nil buf.reverse]
      exact dropWhile_append_of_pos fun c hc => by simp [(hrev c hc).1, (hrev c hc).2]
    rw [this] at hhead
    simp at hhead

/-- The buffered scanner of the source and the declarative description of
`re.sub("[\[].*?[\]]", "", ·)` agree: in the `none` state on the input
itself, and in the `some buf` state on the input as seen with a pending
`[` and buffered characters `buf`. -/
theorem dropBracketsGo_eq_spec :
    ∀ N l, l.length ≤ N →
      dropBracketsGo none l = dropBracketsSpec l ∧
        ∀ buf, (∀ c ∈ buf, c ≠ ']' ∧ c ≠ '\n') →
          dropBracketsGo (some buf) l = dropBracketsSpec ('[' :: (buf.reverse ++ l)) := by
  intro N
  induction N with
  | zero =>
    intro l hlen
    have : l = [] := List.length_eq_zero.mp (Nat.le_zero.mp hlen)
    subst this
    exact ⟨dropBracketsGo_none_nil, fun buf hbuf => dropBracketsGo_some_nil buf hbuf⟩
  | succ N ih =>
    intro l hlen
    match l with
    | [] => exact ⟨dropBracketsGo_none_nil, fun buf hbuf => dropBracketsGo_some_nil buf hbuf⟩
    | c :: rest =>
      have hrest : rest.length ≤ N := by
        simp only [List.length_cons] at hlen
        omega
      constructor
      · by_cases hc : c = '['
        · subst hc
          rw [dropBracketsGo, if_pos rfl, (ih rest hrest).2 [] (by simp)]
          simp
        · rw [dropBracketsGo, if_neg hc, (ih rest hrest).1, dropBracketsSpec, if_neg]
          rintro ⟨h1, -⟩
          exact hc h1
      · intro buf hbuf
        have hrev : ∀ c ∈ buf.reverse, c ≠ ']' ∧ c ≠ '\n' := fun c hc =>
          hbuf c (List.mem_reverse.mp hc)
        have hdw : ∀ (w : List Char),
            (buf.reverse ++ w).dropWhile (fun ch => ch != ']' && ch != '\n') =
              w.dropWhile fun ch => ch != ']' && ch != '\n' :=
          fun w => dropWhile_append_of_pos fun c hc => by simp [(hrev c hc).1, (hrev c hc).2]
        by_cases hc1 : c = ']'
        · subst hc1
          rw [dropBracketsGo, if_pos rfl, (ih rest hrest).1, dropBracketsSpec, if_pos]
          · rw [hdw, List.dropWhile_cons_of_neg (by decide)]
            rfl
          · refine ⟨rfl, ?_⟩
            rw [hdw, List.dropWhile_cons_of_neg (by decide)]
            rfl
        · by_cases hc2 : c = '\n'
          · subst hc2
            rw [dropBracketsGo, if_neg hc1, if_pos rfl, (ih rest hrest).1,
              dropBracketsSpec, if_neg, dropBracketsSpec_append_newline buf.reverse rest hrev]
            · simp
            · rintro ⟨-, hhead⟩
              rw [hdw, List.dropWhile_cons_of_neg (by decide)] at hhead
              simp at hhead
          · rw [dropBracketsGo, if_neg hc1, if_neg hc2,
              (ih rest hrest).2 (c :: buf) fun a ha => by
                rcases List.mem_cons.mp ha with h | h
                · subst h
                  exact ⟨hc1, hc2⟩
                · exact hbuf a h]
            rw [List.reverse_cons, List.append_assoc]
            rfl

/-- `dropBrackets` (the source scanner) equals its declarative
description. -/
theorem dropBrackets_eq_spec (l : List Char) : dropBrackets l = dropBracketsSpec l :=
  (dropBracketsGo_eq_spec l.length l le_rfl).1

/-! ## Token and join lemmas for the whitespace claims -/

/-- Every token produced by `splitGo` is nonempty and whitespace-free,
provided the pending buffer is. -/
theorem splitGo_tokens :
    ∀ (l buf : List Char), (∀ c ∈ buf, pyWhitespace c = false) →
      ∀ t ∈ splitGo buf l, t ≠ [] ∧ ∀ c ∈ t, pyWhitespace c = false := by
  intro l
  induction l with
  | nil =>
    intro buf hbuf t ht
    rw [splitGo] at ht
    rcases hb : buf.isEmpty with _ | _
    · rw [hb, if_neg (by simp)] at ht
      rcases List.mem_singleton.mp ht with rfl
      refine ⟨?_, ?_⟩
      · intro hnil
        rw [List.reverse_eq_nil_iff] at hnil
        subst hnil
        simp at hb
      · intro c hc
        exact hbuf c (List.mem_reverse.mp hc)
    · rw [hb, if_pos rfl] at ht
      exact absurd ht (List.not_mem_nil t)
  | cons c rest ih =>
    intro buf hbuf t ht
    rw [splitGo] at ht
    by_cases hc : pyWhitespace c
    · rw [if_pos hc] at ht
      rcases hb : buf.isEmpty with _ | _
      · rw [hb, if_neg (by simp)] at ht
        rcases List.mem_cons.mp ht with rfl | ht
        · refine ⟨?_, ?_⟩
          · intro hnil
            rw [List.reverse_eq_nil_iff] at hnil
            subst hnil
            simp at hb
          · intro a ha
            exact hbuf a (List.mem_reverse.mp ha)
        · exact ih [] (by simp) t ht
      · rw [hb, if_pos rfl] at ht
        exact ih [] (by simp) t ht
    · rw [if_neg hc] at ht
      refine ih (c :: buf) ?_ t ht
      intro a ha
      rcases List.mem_cons.mp ha with rfl | ha
      · exact Bool.eq_false_iff.mpr hc
      · exact hbuf a ha

/-- Appending a whitespace-free block on the left cannot create a double
whitespace. -/
theorem hasDoubleWs_append_left :
    ∀ {w m : List Char}, (∀ c ∈ w, pyWhitespace c = false) →
      hasDoubleWs m = false → hasDoubleWs (w ++ m) = false
  | [], _, _, hm => hm
  | a :: w, m, hw, hm => by
    have ha : pyWhitespace a = false := hw a (List.mem_cons_self a w)
    have hrec : hasDoubleWs (w ++ m) = false :=
      hasDoubleWs_append_left (fun c hc => hw c (List.mem_cons_of_mem a hc)) hm
    rcases hwm : w ++ m with _ | ⟨x, xs⟩
    · rw [List.cons_append, hwm]
      rfl
    · rw [List.cons_append, hwm, hasDoubleWs, ha]
      rw [hwm] at hrec
      simp [hrec]

/-- A join of nonempty tokens is nonempty. -/
theorem joinWords_ne_nil :
    ∀ {v : List Char} {vs : List (List Char)}, v ≠ [] → joinWords (v :: vs) ≠ [] := by
  intro v vs hv
  match vs with
  | [] => exact hv
  | u :: us =>
    rw [joinWords]
    · intro h
      rcases List.append_eq_nil.mp h with ⟨-, h2⟩
      exact List.cons_ne_nil _ _ h2
    · simp

/-- Whitespace shape of a join of nonempty, whitespace-free tokens: no
leading whitespace, no trailing whitespace, no two consecutive whitespace
characters. -/
theorem joinWords_ws :
    ∀ (ws : List (List Char)),
      (∀ t ∈ ws, t ≠ [] ∧ ∀ c ∈ t, pyWhitespace c = false) →
      noLeadingWs (joinWords ws) = true ∧ noTrailingWs (joinWords ws) = true ∧
        hasDoubleWs (joinWords ws) = false := by
  intro ws
  induction ws using joinWords.induct with
  | case1 =>
    intro _
    exact ⟨rfl, rfl, rfl⟩
  | case2 w =>
    intro hws
    obtain ⟨hne, hfree⟩ := hws w (List.mem_singleton.mpr rfl)
    obtain ⟨a, w', rfl⟩ := List.exists_cons_of_ne_nil hne
    refine ⟨?_, ?_, ?_⟩
    · show noLeadingWs (a :: w') = true
      simp [noLeadingWs, hfree a (List.mem_cons_self a w')]
    · show noTrailingWs (a :: w') = true
      rcases hlast : (a :: w').getLast? with _ | c
      · simp at hlast
      · simp [noTrailingWs, hlast, hfree c (List.mem_of_getLast?_eq_some hlast)]
    · show hasDoubleWs (a :: w') = false
      have := hasDoubleWs_append_left (w := a :: w') (m := []) hfree rfl
      simpa using this
  | case3 w ws hwsne ih =>
    intro hws
    obtain ⟨v, vs, rfl⟩ : ∃ v vs, ws = v :: vs := by
      rcases ws with _ | ⟨v, vs⟩
      · exact absurd rfl hwsne
      · exact ⟨v, vs, rfl⟩
    obtain ⟨hne, hfree⟩ := hws w (List.mem_cons_self w (v :: vs))
    obtain ⟨hL, hT, hD⟩ := ih fun t ht => hws t (List.mem_cons_of_mem w ht)
    have hJne : joinWords (v :: vs) ≠ [] :=
      joinWords_ne_nil (hws v (List.mem_cons_of_mem w (List.mem_cons_self v vs))).1
    obtain ⟨j, js, hJ⟩ := List.exists_cons_of_ne_nil hJne
    obtain ⟨a, w', rfl⟩ := List.exists_cons_of_ne_nil hne
    rw [joinWords, hJ]
    case x_1 => simp
    refine ⟨?_, ?_, ?_⟩
    · show noLeadingWs ((a :: w') ++ ' ' :: j :: js) = true
      simp [noLeadingWs, hfree a (List.mem_cons_self a w')]
    · show noTrailingWs ((a :: w') ++ ' ' :: j :: js) = true
      rw [hJ] at hT
      unfold noTrailingWs at hT ⊢
      rw [List.getLast?_append]
      rcases hlast : (j :: js).getLast? with _ | c
      · simp at hlast
      · rw [show (' ' :: j :: js).getLast? = some c by
          rw [show ' ' :: j :: js = [' '] ++ j :: js from rfl, List.getLast?_append, hlast]
          rfl]
        rw [hlast] at hT
        simpa using hT
    · show hasDoubleWs ((a :: w') ++ ' ' :: j :: js) = false
      refine hasDoubleWs_append_left hfree ?_
      rw [hJ] at hL hD
      have hj : pyWhitespace j = false := by
        simpa [noLeadingWs] using hL
      rw [hasDoubleWs, hj]
      simpa using hD

/-! ## Column lemmas for `top_words` -/

theorem sortColumn_perm (s : List (List Char × ℚ)) : (sortColumn s).Perm s :=
  List.perm_insertionSort _ s

theorem sortColumn_sorted (s : List (List Char × ℚ)) :
    List.Sorted (fun a b => b.2 ≤ a.2) (sortColumn s) :=
  List.sorted_insertionSort _ s

theorem colPairs_length (df : DataFrame) (j : ℕ)
    (hlen : df.index.length = df.rows.length) : (colPairs df j).length = df.rows.length := by
  rw [colPairs, List.length_zip, List.length_map, hlen]
  exact min_self _

theorem sortColumn_length (s : List (List Char × ℚ)) : (sortColumn s).length = s.length :=
  List.length_insertionSort _ s

theorem topWordsCol_length (df : DataFrame) (n j : ℕ)
    (hlen : df.index.length = df.rows.length) (hrows : n ≤ df.rows.length) :
    (topWordsCol df n j).length = n := by
  rw [topWordsCol, List.length_map, List.length_take, sortColumn_length,
    colPairs_length df j hlen]
  exact min_eq_left hrows

/-- A flat map over a duplicate-free list in which only the block of `j`
is nonempty collapses to that block. -/
theorem flatMap_eq_single {α : Type} (f : ℕ → List α) :
    ∀ (l : List ℕ), l.Nodup → ∀ j ∈ l, (∀ i ∈ l, i ≠ j → f i = []) → l.flatMap f = f j := by
  intro l
  induction l with
  | nil =>
    intro _ j hj
    exact absurd hj (List.not_mem_nil j)
  | cons a t ih =>
    intro hnd j hj hf
    rw [List.flatMap_cons]
    by_cases haj : a = j
    · subst haj
      have ht : t.flatMap f = [] := by
        rw [List.flatMap_eq_nil_iff]
        intro x hx
        exact hf x (List.mem_cons_of_mem a hx)
          fun hxa => (List.nodup_cons.mp hnd).1 (hxa ▸ hx)
      rw [ht, List.append_nil]
    · rw [hf a (List.mem_cons_self a t) haj, List.nil_append]
      exact ih (List.nodup_cons.mp hnd).2 j
        (List.mem_cons.mp hj |>.resolve_left fun h => haj h.symm)
        fun i hi => hf i (List.mem_cons_of_mem a hi)

/-- The entries `top_words` lists for column `j` are exactly the
`chosenlist` of column `j`'s loop iteration. -/
theorem top_words_column_entries (df : DataFrame) (n j : ℕ) (hj : j < dfNcols df) :
    (top_words df n).filterMap (fun e => if e.1 = j then some e.2 else none) =
      topWordsCol df n j := by
  unfold top_words
  rw [List.filterMap_flatMap]
  have hcollapse : ∀ i, ((topWordsCol df n i).map fun s => (i, s)).filterMap
      (fun e => if e.1 = j then some e.2 else none) =
      if i = j then topWordsCol df n i else [] := by
    intro i
    rw [List.filterMap_map]
    by_cases hij : i = j
    · subst hij
      rw [if_pos rfl]
      have : ((fun e : ℕ × List Char => if e.1 = i then some e.2 else none) ∘
          fun s => (i, s)) = some := by
        funext s
        simp
      rw [this, List.filterMap_some]
    · rw [if_neg hij]
      have : ((fun e : ℕ × List Char => if e.1 = j then some e.2 else none) ∘
          fun s : List Char => (i, s)) = fun _ => none := by
        funext s
        simp [hij]
      rw [this]
      simp
  simp only [hcollapse]
  rw [flatMap_eq_single _ _ (List.nodup_range _) j (List.mem_range.mpr hj)
    fun i _ hij => if_neg hij]
  rw [if_pos rfl]

/-- Count of one block label in a flat map of constant blocks. -/
theorem count_flatMap_replicate (n j : ℕ) :
    ∀ (l : List ℕ), l.Nodup → j ∈ l →
      ((l.flatMap fun i => List.replicate n i).count j) = n := by
  intro l
  induction l with
  | nil =>
    intro _ hj
    exact absurd hj (List.not_mem_nil j)
  | cons a t ih =>
    intro hnd hj
    rw [List.flatMap_cons, List.count_append, List.count_replicate]
    by_cases haj : a = j
    · have hjt : j ∉ t := haj ▸ (List.nodup_cons.mp hnd).1
      have hz : j ∉ t.flatMap fun i => List.replicate n i := by
        intro hmem
        rcases List.mem_flatMap.mp hmem with ⟨i, hi, hji⟩
        rcases List.eq_of_mem_replicate hji with rfl
        exact hjt hi
      rw [List.count_eq_zero.mpr hz, if_pos (by simp [haj])]
      rfl
    · rw [if_neg (by simp [haj]), Nat.zero_add]
      exact ih (List.nodup_cons.mp hnd).2
        (List.mem_cons.mp hj |>.resolve_left fun h => haj h.symm)

/-- Shape of the Series index built by `top_words`: ascending blocks of
column numbers, one entry per chosen word. -/
theorem top_words_map_fst (df : DataFrame) (n : ℕ)
    (hcol : ∀ j, (topWordsCol df n j).length = n) :
    (top_words df n).map Prod.fst =
      (List.range (dfNcols df)).flatMap fun j => List.replicate n j := by
  unfold top_words
  rw [List.map_flatMap]
  congr 1
  funext j
  rw [List.map_map]
  have : (Prod.fst ∘ fun s : List Char => (j, s)) = fun _ => j := rfl
  rw [this, List.map_const', hcol j]

/-! ## Claim C9 -/

/-- Claim C9: the Series `top_words` returns has `shape[1] * n_top_words`
entries; its index lists the column numbers in ascending blocks, one block
of `n_top_words` copies per column, so each column number appears exactly
`n_top_words` times. -/
theorem claim_C9 (df : DataFrame) (n : ℕ)
    (hlen : df.index.length = df.rows.length) (hrows : n ≤ df.rows.length) :
    (top_words df n).length = dfNcols df * n ∧
      (top_words df n).map Prod.fst =
        ((List.range (dfNcols df)).flatMap fun j => List.replicate n j) ∧
      ∀ j, j < dfNcols df → ((top_words df n).map Prod.fst).count j = n := by
  have hfst : (top_words df n).map Prod.fst =
      (List.range (dfNcols df)).flatMap fun j => List.replicate n j :=
    top_words_map_fst df n fun j => topWordsCol_length df n j hlen hrows
  refine ⟨?_, hfst, ?_⟩
  · have := congrArg List.length hfst
    rw [List.length_map] at this
    rw [this, List.length_flatMap]
    have : (List.map (List.length ∘ fun j => List.replicate n j)
        (List.range (dfNcols df))) = List.replicate (dfNcols df) n := by
      have : (List.length ∘ fun j : ℕ => List.replicate n j) = fun _ => n := by
        funext j
        simp
      rw [this, List.map_const', List.length_range]
    rw [this, List.sum_replicate, smul_eq_mul]
  · intro j hj
    rw [hfst]
    exact count_flatMap_replicate n j _ (List.nodup_range _) (List.mem_range.mpr hj)

/-! ## Claim C1 -/

/-- Claim C1: for a DataFrame with as many row labels as rows and at least
`n_top_words` rows, the entries `top_words` reports for each column `j`
are the `n_top_words` rows with the largest values in column `j` — some
splitting `chosen ++ rest` of the column in which `chosen` has length
`n_top_words`, is ordered by decreasing value, and dominates every
remaining value — each formatted as the row label, a space, and the value
rounded to two decimals. -/
theorem claim_C1 (df : DataFrame) (n : ℕ) (hn : 1 ≤ n)
    (hlen : df.index.length = df.rows.length) (hrows : n ≤ df.rows.length)
    (j : ℕ) (hj : j < dfNcols df) :
    ∃ chosen rest : List (List Char × ℚ),
      chosen.length = n ∧
      (chosen ++ rest).Perm (colPairs df j) ∧
      List.Sorted (fun a b => b.2 ≤ a.2) chosen ∧
      (∀ q ∈ chosen, ∀ q' ∈ rest, q'.2 ≤ q.2) ∧
      (top_words df n).filterMap (fun e => if e.1 = j then some e.2 else none) =
        chosen.map fun q => q.1 ++ ' ' :: ratStr2 (round2 q.2) := by
  refine ⟨(sortColumn (colPairs df j)).take n, (sortColumn (colPairs df j)).drop n,
    ?_, ?_, ?_, ?_, ?_⟩
  · rw [List.length_take, sortColumn_length, colPairs_length df j hlen]
    exact min_eq_left hrows
  · rw [List.take_append_drop]
    exact sortColumn_perm _
  · exact List.Pairwise.sublist (List.take_sublist n _) (sortColumn_sorted _)
  · have h := sortColumn_sorted (colPairs df j)
    rw [← List.take_append_drop n (sortColumn (colPairs df j))] at h
    intro q hq q' hq'
    exact (List.pairwise_append.mp h).2.2 q hq q' hq'
  · rw [top_words_column_entries df n j hj]
    rfl

/-- Witness for claim C1 at a concrete 2-row, 1-column DataFrame. -/
theorem claim_C1_witness :
    ∃ chosen rest : List (List Char × ℚ),
      chosen.length = 1 ∧
      (chosen ++ rest).Perm (colPairs ⟨[[1], [2]], [['a'], ['b']]⟩ 0) ∧
      List.Sorted (fun a b => b.2 ≤ a.2) chosen ∧
      (∀ q ∈ chosen, ∀ q' ∈ rest, q'.2 ≤ q.2) ∧
      (top_words ⟨[[1], [2]], [['a'], ['b']]⟩ 1).filterMap
          (fun e => if e.1 = 0 then some e.2 else none) =
        chosen.map fun q => q.1 ++ ' ' :: ratStr2 (round2 q.2) :=
  claim_C1 ⟨[[1], [2]], [['a'], ['b']]⟩ 1 (by decide) (by decide) (by decide) 0 (by decide)

/-- Witness for claim C9 at the same DataFrame. -/
theorem claim_C9_witness :
    (top_words ⟨[[1], [2]], [['a'], ['b']]⟩ 1).length =
        dfNcols ⟨[[1], [2]], [['a'], ['b']]⟩ * 1 ∧
      (top_words ⟨[[1], [2]], [['a'], ['b']]⟩ 1).map Prod.fst =
        ((List.range (dfNcols ⟨[[1], [2]], [['a'], ['b']]⟩)).flatMap fun j =>
          List.replicate 1 j) ∧
      ∀ j, j < dfNcols ⟨[[1], [2]], [['a'], ['b']]⟩ →
        ((top_words ⟨[[1], [2]], [['a'], ['b']]⟩ 1).map Prod.fst).count j = 1 :=
  claim_C9 ⟨[[1], [2]], [['a'], ['b']]⟩ 1 (by decide) (by decide)

/-! ## Claim C3 -/

/-- Row `i` of a transpose is column `i` of the matrix. -/
theorem getElem?_transpose (m : Mat) (i : ℕ) (hi : i < ncolsOf m) :
    (transpose m)[i]? = some (m.map fun r => r.getD i 0) := by
  rw [transpose, List.getElem?_map, List.getElem?_range hi]
  rfl

/-- Claim C3: `word_topic` returns a DataFrame whose row index is exactly
`wordlist` and whose values are the matrix product of the transpose of
`tfidf` with `solution`: it has one row per `tfidf` column, and the entry
in row `i`, column `j` is the sum over documents of
`tfidf[doc][i] * solution[doc][j]`. -/
theorem claim_C3 (tfidf solution : Mat) (wordlist : List (List Char)) (m k : ℕ)
    (htne : tfidf ≠ []) (ht : ∀ r ∈ tfidf, r.length = m)
    (hs : ∀ r ∈ solution, r.length = k)
    (hts : tfidf.length = solution.length) (hw : wordlist.length = m) :
    (word_topic tfidf solution wordlist).index = wordlist ∧
      (word_topic tfidf solution wordlist).rows.length = m ∧
      ∀ i j, i < m → j < k →
        ((word_topic tfidf solution wordlist).rows.getD i []).getD j 0 =
          (List.zipWith (fun r c => r.getD i 0 * c.getD j 0) tfidf solution).sum := by
  have hm : ncolsOf tfidf = m := by
    obtain ⟨t0, t', rfl⟩ := List.exists_cons_of_ne_nil htne
    exact ht t0 (List.mem_cons_self t0 t')
  have hsne : solution ≠ [] := by
    intro h
    rw [h, List.length_nil] at hts
    exact htne (List.length_eq_zero.mp hts)
  have hk : ncolsOf solution = k := by
    obtain ⟨s0, s', rfl⟩ := List.exists_cons_of_ne_nil hsne
    exact hs s0 (List.mem_cons_self s0 s')
  refine ⟨rfl, ?_, ?_⟩
  · show (matMul (transpose tfidf) solution).length = m
    rw [matMul, List.length_map, transpose, List.length_map, List.length_range, hm]
  · intro i j hi hj
    have h1 : (word_topic tfidf solution wordlist).rows.getD i [] =
        (transpose solution).map (dot (tfidf.map fun r => r.getD i 0)) := by
      rw [List.getD_eq_getElem?_getD]
      show (matMul (transpose tfidf) solution)[i]?.getD [] = _
      rw [matMul, List.getElem?_map, getElem?_transpose tfidf i (by rw [hm]; exact hi)]
      rfl
    have h2 : ((transpose solution).map (dot (tfidf.map fun r => r.getD i 0))).getD j 0 =
        dot (tfidf.map fun r => r.getD i 0) (solution.map fun r => r.getD j 0) := by
      rw [List.getD_eq_getElem?_getD, List.getElem?_map,
        getElem?_transpose solution j (by rw [hk]; exact hj)]
      rfl
    rw [h1, h2, dot, List.zipWith_map]

/-- Witness for claim C3 at concrete 2x2 matrices. -/
theorem claim_C3_witness :
    (word_topic [[1, 2], [3, 4]] [[5, 6], [7, 8]] [['x'], ['y']]).index = [['x'], ['y']] ∧
      (word_topic [[1, 2], [3, 4]] [[5, 6], [7, 8]] [['x'], ['y']]).rows.length = 2 ∧
      ∀ i j, i < 2 → j < 2 →
        ((word_topic [[1, 2], [3, 4]] [[5, 6], [7, 8]] [['x'], ['y']]).rows.getD i []).getD j 0 =
          (List.zipWith (fun r c : List ℚ => r.getD i 0 * c.getD j 0)
            [[1, 2], [3, 4]] [[5, 6], [7, 8]]).sum :=
  claim_C3 [[1, 2], [3, 4]] [[5, 6], [7, 8]] [['x'], ['y']] 2 2 (by decide)
    (by decide) (by decide) (by decide) (by decide)

/-! ## Claim C4 -/

/-- `word_topic` produces one row per `tfidf` column. -/
theorem word_topic_rows_length (t s : Mat) (w : List (List Char)) :
    (word_topic t s w).rows.length = ncolsOf t := by
  show (matMul (transpose t) s).length = ncolsOf t
  rw [matMul, List.length_map, transpose, List.length_map, List.length_range]

/-- `word_topic` produces one column per `solution` column (as soon as the
result has a first row to read the width from). -/
theorem word_topic_ncols (t s : Mat) (w : List (List Char)) (h : 0 < ncolsOf t) :
    dfNcols (word_topic t s w) = ncolsOf s := by
  have hhead : (word_topic t s w).rows.headD [] =
      (transpose s).map (dot (t.map fun r => r.getD 0 0)) := by
    rw [List.headD_eq_head?_getD, List.head?_eq_getElem?]
    show (matMul (transpose t) s)[0]?.getD [] = _
    rw [matMul, List.getElem?_map, getElem?_transpose t 0 h]
    rfl
  show ncolsOf (word_topic t s w).rows = ncolsOf s
  rw [ncolsOf, hhead, List.length_map, transpose, List.length_map, List.length_range]

/-- Claim C4: the LSA, LDA and NMF topwords columns are computed by one and
the same pipeline — `word_topic` on the shared tf-idf matrix, the model's
document-topic output and the vectorizer vocabulary, followed by
`top_words` with `n_top_words = 10` — and whenever the model output has
`ntopics = 8` columns (and the tf-idf matrix at least 10 vocabulary rows),
each of the three columns lists 10 words for each of the 8 topics. -/
theorem claim_C4 :
    (∀ (tfidf : Mat) (vocab : List (List Char)) (sol : Mat),
        topwords_LSA tfidf vocab sol = top_words (word_topic tfidf sol vocab) nb_n_top_words ∧
        topwords_LDA tfidf vocab sol = top_words (word_topic tfidf sol vocab) nb_n_top_words ∧
        topwords_NNMF tfidf vocab sol = top_words (word_topic tfidf sol vocab) nb_n_top_words) ∧
      nb_n_top_words = 10 ∧ nb_ntopics = 8 ∧
      ∀ (tfidf : Mat) (vocab : List (List Char)) (sol : Mat),
        ncolsOf sol = nb_ntopics → vocab.length = ncolsOf tfidf →
        nb_n_top_words ≤ ncolsOf tfidf →
        ((topwords_LSA tfidf vocab sol).map Prod.fst =
            ((List.range nb_ntopics).flatMap fun j => List.replicate nb_n_top_words j) ∧
          (topwords_LDA tfidf vocab sol).map Prod.fst =
            ((List.range nb_ntopics).flatMap fun j => List.replicate nb_n_top_words j) ∧
          (topwords_NNMF tfidf vocab sol).map Prod.fst =
            ((List.range nb_ntopics).flatMap fun j => List.replicate nb_n_top_words j)) := by
  refine ⟨fun tfidf vocab sol => ⟨rfl, rfl, rfl⟩, rfl, rfl, ?_⟩
  intro tfidf vocab sol hsol hvocab hwidth
  have hpos : 0 < ncolsOf tfidf := lt_of_lt_of_le (by decide) hwidth
  have hshape : (top_words (word_topic tfidf sol vocab) nb_n_top_words).map Prod.fst =
      (List.range nb_ntopics).flatMap fun j => List.replicate nb_n_top_words j := by
    have hlen : (word_topic tfidf sol vocab).index.length =
        (word_topic tfidf sol vocab).rows.length := by
      rw [word_topic_rows_length]
      exact hvocab
    have hrows : nb_n_top_words ≤ (word_topic tfidf sol vocab).rows.length := by
      rw [word_topic_rows_length]
      exact hwidth
    rw [top_words_map_fst _ _ fun j => topWordsCol_length _ _ j hlen hrows,
      word_topic_ncols tfidf sol vocab hpos, hsol]
  exact ⟨hshape, hshape, hshape⟩

/-- Witness for claim C4's dimension part at a 1-document, 10-word tf-idf
matrix and a 1-row, 8-topic solution. -/
theorem claim_C4_witness :
    (topwords_LSA [[1, 1, 1, 1, 1, 1, 1, 1, 1, 1]] (List.replicate 10 ['w'])
          [[1, 2, 3, 4, 5, 6, 7, 8]]).map Prod.fst =
        ((List.range nb_ntopics).flatMap fun j => List.replicate nb_n_top_words j) ∧
      (topwords_LDA [[1, 1, 1, 1, 1, 1, 1, 1, 1, 1]] (List.replicate 10 ['w'])
          [[1, 2, 3, 4, 5, 6, 7, 8]]).map Prod.fst =
        ((List.range nb_ntopics).flatMap fun j => List.replicate nb_n_top_words j) ∧
      (topwords_NNMF [[1, 1, 1, 1, 1, 1, 1, 1, 1, 1]] (List.replicate 10 ['w'])
          [[1, 2, 3, 4, 5, 6, 7, 8]]).map Prod.fst =
        ((List.range nb_ntopics).flatMap fun j => List.replicate nb_n_top_words j) :=
  claim_C4.2.2.2 [[1, 1, 1, 1, 1, 1, 1, 1, 1, 1]] (List.replicate 10 ['w'])
    [[1, 2, 3, 4, 5, 6, 7, 8]] (by decide) (by decide) (by decide)

/-! ## Claim C8 -/

/-- Claim C8: the string returned by `text_cleaner` has no leading or
trailing whitespace and contains no two consecutive whitespace
characters. -/
theorem claim_C8 (text : List Char) :
    noLeadingWs (text_cleaner text) = true ∧ noTrailingWs (text_cleaner text) = true ∧
      hasDoubleWs (text_cleaner text) = false := by
  unfold text_cleaner pySplit
  exact joinWords_ws _ (splitGo_tokens _ [] (by simp))

/-! ## Claim C2 -/

/-- Claim C2, counterexample.  The claim describes step (2) as deleting
every minimal substring that starts with `[` and ends with `]`; on the
input `"[a\nb]"` that description deletes the whole input, but the code's
regex `[\[].*?[\]]` cannot match across the newline (Python's `.` does not
match `\n`), so `text_cleaner` keeps the brackets and returns `"[a b]"`. -/
theorem claim_C2_counterexample :
    text_cleaner "[a\nb]".toList = "[a b]".toList ∧
      text_cleaner_claimed "[a\nb]".toList = [] ∧
      ¬ text_cleaner "[a\nb]".toList = text_cleaner_claimed "[a\nb]".toList := by
  decide

/-- Claim C2 (amended): `text_cleaner` applies, in this order, (1) the
replacement of every `--` by a single space, (2) the deletion of every
minimal substring that starts with `[`, ends with `]` and has no newline
in between, (3) the deletion of every `Chapter ` followed by one or more
digits, and (4) whitespace splitting re-joined with single spaces. -/
theorem claim_C2 (text : List Char) :
    text_cleaner text =
      joinWords (pySplit (dropChapter (dropBracketsSpec (replaceDashes text)))) := by
  unfold text_cleaner
  rw [dropBrackets_eq_spec]

/-! ## Claim C5 -/

/-- Unless the first two characters are both dashes, `replaceDashes` emits
the head unchanged. -/
theorem replaceDashes_cons_ne {b : Char} (hb : b ≠ '-') (rest : List Char) :
    replaceDashes (b :: rest) = b :: replaceDashes rest := by
  match rest with
  | [] => rfl
  | r :: rs =>
    rw [replaceDashes, if_neg]
    rintro ⟨h1, -⟩
    exact hb h1

/-- Claim C5, counterexample.  The bracket-deletion step can create a `--`
that the first step never saw: on `"-[x]-"` the first substitution finds
no `--`, the bracket deletion then glues the two outer dashes together,
and the final output is exactly `"--"`. -/
theorem claim_C5_counterexample :
    text_cleaner "-[x]-".toList = ['-', '-'] ∧
      ['-', '-'] <:+: text_cleaner "-[x]-".toList := by
  decide

/-- Claim C5 (amended): the output of the dash-replacement step itself
(`re.sub(r'--', ' ', text)`) contains no occurrence of `--`; the claim as
stated fails only because the later deletion steps can bring the
surviving single dashes together again. -/
theorem claim_C5 (text : List Char) : ¬ ['-', '-'] <:+: replaceDashes text := by
  induction text using replaceDashes.induct with
  | case1 =>
    rw [replaceDashes]
    simp
  | case2 c =>
    intro h
    have := h.length_le
    simp [replaceDashes] at this
  | case3 a b rest hab ih =>
    rw [replaceDashes, if_pos hab]
    intro h
    rcases List.infix_cons_iff.mp h with h | h
    · rcases List.cons_prefix_cons.mp h with ⟨h1, -⟩
      exact absurd h1 (by decide)
    · exact ih h
  | case4 a b rest hab ih =>
    rw [replaceDashes, if_neg hab]
    intro h
    rcases List.infix_cons_iff.mp h with h | h
    · rcases List.cons_prefix_cons.mp h with ⟨h1, h2⟩
      subst h1
      have hb : b ≠ '-' := fun hb => hab ⟨rfl, hb⟩
      rw [replaceDashes_cons_ne hb] at h2
      rcases List.cons_prefix_cons.mp h2 with ⟨h3, -⟩
      exact hb h3.symm
    · exact ih h

end DescribingData

namespace DimRed

/-! ## Claim C6 -/

/-- Claim C6: the dimensionality-reduction notebook draws `n * p` standard
normals reshaped to `n = 1000` observations of `p = 10` features, builds
the outcome `y[i] = X[i,0] + 2*X[i,1] + noise[i] + 5`, fits an ordinary
least squares regression on all 10 features and a `PLSRegression` with 3
components on the same `(X, y)`, and prints the R-squared score of each of
the two fitted models. -/
theorem claim_C6 (fitLR : Fitter) (fitPLS : ℕ → Fitter) (draws noise : List ℚ)
    (hdraws : draws.length = n * p) (hnoise : noise.length = n) :
    n = 1000 ∧ p = 10 ∧
      (makeX draws).length = 1000 ∧
      (∀ row ∈ makeX draws, row.length = 10) ∧
      (makeY (makeX draws) noise).length = 1000 ∧
      (∀ i, i < 1000 →
        (makeY (makeX draws) noise).getD i 0 =
          draws.getD (i * 10) 0 + 2 * draws.getD (i * 10 + 1) 0 + noise.getD i 0 + 5) ∧
      dimRedCell fitLR fitPLS draws noise =
        (r2_score (makeY (makeX draws) noise)
            (fitLR (makeX draws) (makeY (makeX draws) noise) (makeX draws)),
          r2_score (makeY (makeX draws) noise)
            (fitPLS 3 (makeX draws) (makeY (makeX draws) noise) (makeX draws))) := by
  have hXlen : (makeX draws).length = 1000 := by
    rw [makeX, reshape, List.length_map, List.length_range]
    rfl
  have hdraws' : draws.length = 10000 := by
    rw [hdraws]
    rfl
  refine ⟨rfl, rfl, hXlen, ?_, ?_, ?_, rfl⟩
  · intro row hrow
    rw [makeX, reshape] at hrow
    rcases List.mem_map.mp hrow with ⟨i, hi, rfl⟩
    have hi' : i < 1000 := List.mem_range.mp hi
    rw [List.length_take, List.length_drop, hdraws']
    show min 10 (10000 - i * 10) = 10
    omega
  · rw [makeY, List.length_zipWith, hXlen, hnoise]
    rfl
  · intro i hi
    have hX : (makeX draws)[i]? = some ((draws.drop (i * 10)).take 10) := by
      rw [makeX, reshape, List.getElem?_map, List.getElem?_range (by exact hi)]
      rfl
    have hv : noise[i]? = some (noise.getD i 0) := by
      have hlt : i < noise.length := by
        rw [hnoise]
        exact hi
      rw [List.getD_eq_getElem?_getD, List.getElem?_eq_getElem hlt]
      rfl
    rw [makeY, List.getD_eq_getElem?_getD, List.getElem?_zipWith', hX, hv]
    show ((draws.drop (i * 10)).take 10).getD 0 0 +
        2 * ((draws.drop (i * 10)).take 10).getD 1 0 + noise.getD i 0 + 5 = _
    have h0 : ((draws.drop (i * 10)).take 10).getD 0 0 = draws.getD (i * 10) 0 := by
      rw [List.getD_eq_getElem?_getD, List.getElem?_take, if_pos (by omega),
        List.getElem?_drop, List.getD_eq_getElem?_getD, Nat.add_zero]
    have h1 : ((draws.drop (i * 10)).take 10).getD 1 0 = draws.getD (i * 10 + 1) 0 := by
      rw [List.getD_eq_getElem?_getD, List.getElem?_take, if_pos (by omega),
        List.getElem?_drop, List.getD_eq_getElem?_getD]
    rw [h0, h1]

/-- Witness for claim C6 with zero draws and trivial fitted models. -/
theorem claim_C6_witness : n = 1000 :=
  (claim_C6 (fun _ _ _ => []) (fun _ _ _ _ => []) (List.replicate 10000 0)
    (List.replicate 1000 0) (by rw [List.length_replicate]; rfl)
    (by rw [List.length_replicate]; rfl)).1

end DimRed

namespace DescribingData

/-! ## Provenance lemmas: the helpers only rearrange their inputs -/

/-- Characters surviving `replaceDashes` come from the input or are the
inserted spaces. -/
theorem mem_replaceDashes : ∀ (l : List Char), ∀ c ∈ replaceDashes l, c ∈ l ∨ c = ' ' := by
  intro l
  induction l using replaceDashes.induct with
  | case1 =>
    intro c hc
    rw [replaceDashes] at hc
    exact absurd hc (List.not_mem_nil c)
  | case2 x =>
    intro c hc
    rw [replaceDashes] at hc
    exact Or.inl hc
  | case3 a b rest hab ih =>
    intro c hc
    rw [replaceDashes, if_pos hab] at hc
    rcases List.mem_cons.mp hc with rfl | hc
    · exact Or.inr rfl
    · rcases ih c hc with h | h
      · exact Or.inl (List.mem_cons_of_mem a (List.mem_cons_of_mem b h))
      · exact Or.inr h
  | case4 a b rest hab ih =>
    intro c hc
    rw [replaceDashes, if_neg hab] at hc
    rcases List.mem_cons.mp hc with rfl | hc
    · exact Or.inl (List.mem_cons_self _ _)
    · rcases ih c hc with h | h
      · exact Or.inl (List.mem_cons_of_mem a h)
      · exact Or.inr h

/-- Characters surviving the bracket scanner come from the input, from the
pending buffer, or are the pending `[`. -/
theorem mem_dropBracketsGo :
    ∀ (st : Option (List Char)) (l : List Char) (c : Char), c ∈ dropBracketsGo st l →
      c ∈ l ∨ ∃ buf, st = some buf ∧ (c ∈ buf ∨ c = '[') := by
  intro st l
  induction st, l using dropBracketsGo.induct with
  | case1 =>
    intro c hc
    exact absurd hc (List.not_mem_nil c)
  | case2 rest ih =>
    intro a ha
    rw [dropBracketsGo, if_pos rfl] at ha
    rcases ih a ha with h1 | ⟨buf, hbuf, h2⟩
    · exact Or.inl (List.mem_cons_of_mem '[' h1)
    · rcases Option.some.inj hbuf with rfl
      rcases h2 with h2 | rfl
      · exact absurd h2 (List.not_mem_nil a)
      · exact Or.inl (List.mem_cons_self _ _)
  | case3 c rest h ih =>
    intro a ha
    rw [dropBracketsGo, if_neg h] at ha
    rcases List.mem_cons.mp ha with rfl | ha
    · exact Or.inl (List.mem_cons_self _ _)
    · rcases ih a ha with h1 | ⟨buf, hbuf, -⟩
      · exact Or.inl (List.mem_cons_of_mem c h1)
      · simp at hbuf
  | case4 buf =>
    intro a ha
    rw [dropBracketsGo] at ha
    rcases List.mem_cons.mp ha with rfl | ha
    · exact Or.inr ⟨buf, rfl, Or.inr rfl⟩
    · exact Or.inr ⟨buf, rfl, Or.inl (List.mem_reverse.mp ha)⟩
  | case5 buf rest ih =>
    intro a ha
    rw [dropBracketsGo, if_pos rfl] at ha
    rcases ih a ha with h1 | ⟨buf', hbuf, -⟩
    · exact Or.inl (List.mem_cons_of_mem ']' h1)
    · simp at hbuf
  | case6 buf rest h ih =>
    intro a ha
    rw [dropBracketsGo, if_neg h, if_pos rfl] at ha
    rcases List.mem_cons.mp ha with rfl | ha
    · exact Or.inr ⟨buf, rfl, Or.inr rfl⟩
    · rcases List.mem_append.mp ha with ha | ha
      · exact Or.inr ⟨buf, rfl, Or.inl (List.mem_reverse.mp ha)⟩
      · rcases List.mem_cons.mp ha with rfl | ha
        · exact Or.inl (List.mem_cons_self _ _)
        · rcases ih a ha with h3 | ⟨buf', hbuf, -⟩
          · exact Or.inl (List.mem_cons_of_mem _ h3)
          · simp at hbuf
  | case7 buf c rest h1 h2 ih =>
    intro a ha
    rw [dropBracketsGo, if_neg h1, if_neg h2] at ha
    rcases ih a ha with h3 | ⟨buf', hbuf, h4⟩
    · exact Or.inl (List.mem_cons_of_mem c h3)
    · rcases Option.some.inj hbuf with rfl
      rcases h4 with h4 | rfl
      · rcases List.mem_cons.mp h4 with rfl | h4
        · exact Or.inl (List.mem_cons_self _ _)
        · exact Or.inr ⟨buf, rfl, Or.inl h4⟩
      · exact Or.inr ⟨buf, rfl, Or.inr rfl⟩

/-- Characters surviving the chapter-title scanner come from the input. -/
theorem mem_dropChapterGo :
    ∀ (skip : Bool) (l : List Char) (c : Char), c ∈ dropChapterGo skip l → c ∈ l := by
  intro skip l
  induction skip, l using dropChapterGo.induct with
  | case1 x =>
    intro c hc
    rw [dropChapterGo] at hc
    exact absurd hc (List.not_mem_nil c)
  | case2 x d rest' hd ih =>
    intro c hc
    rw [dropChapterGo, if_pos hd] at hc
    have := ih c hc
    simp only [List.mem_cons]
    tauto
  | case3 x d rest' hd ih =>
    intro c hc
    rw [dropChapterGo, if_neg hd] at hc
    rcases List.mem_cons.mp hc with rfl | hc
    · exact List.mem_cons_self _ _
    · exact List.mem_cons_of_mem _ (ih c hc)
  | case4 skip c rest hpat h ih =>
    intro a ha
    rw [dropChapterGo, if_pos h] at ha
    · exact List.mem_cons_of_mem c (ih a ha)
    · exact hpat
  | case5 skip c rest hpat h ih =>
    intro a ha
    rw [dropChapterGo, if_neg h] at ha
    case x_2 => exact hpat
    rcases List.mem_cons.mp ha with rfl | ha
    · exact List.mem_cons_self _ _
    · exact List.mem_cons_of_mem c (ih a ha)

/-- Characters of the split tokens come from the pending buffer or the
input. -/
theorem mem_splitGo :
    ∀ (l buf : List Char), ∀ t ∈ splitGo buf l, ∀ c ∈ t, c ∈ buf ∨ c ∈ l := by
  intro l
  induction l with
  | nil =>
    intro buf t ht c hc
    rw [splitGo] at ht
    rcases hb : buf.isEmpty with _ | _
    · rw [hb, if_neg (by simp)] at ht
      rcases List.mem_singleton.mp ht with rfl
      exact Or.inl (List.mem_reverse.mp hc)
    · rw [hb, if_pos rfl] at ht
      exact absurd ht (List.not_mem_nil t)
  | cons x rest ih =>
    intro buf t ht c hc
    rw [splitGo] at ht
    by_cases hx : pyWhitespace x
    · rw [if_pos hx] at ht
      rcases hb : buf.isEmpty with _ | _
      · rw [hb, if_neg (by simp)] at ht
        rcases List.mem_cons.mp ht with rfl | ht
        · exact Or.inl (List.mem_reverse.mp hc)
        · rcases ih [] t ht c hc with h | h
          · exact absurd h (List.not_mem_nil c)
          · exact Or.inr (List.mem_cons_of_mem x h)
      · rw [hb, if_pos rfl] at ht
        rcases ih [] t ht c hc with h | h
        · exact absurd h (List.not_mem_nil c)
        · exact Or.inr (List.mem_cons_of_mem x h)
    · rw [if_neg hx] at ht
      rcases ih (x :: buf) t ht c hc with h | h
      · rcases List.mem_cons.mp h with rfl | h
        · exact Or.inr (List.mem_cons_self _ _)
        · exact Or.inl h
      · exact Or.inr (List.mem_cons_of_mem x h)

/-- Characters of a join come from its tokens or are the inserted
spaces. -/
theorem mem_joinWords :
    ∀ (ws : List (List Char)), ∀ c ∈ joinWords ws, (∃ t ∈ ws, c ∈ t) ∨ c = ' ' := by
  intro ws
  induction ws using joinWords.induct with
  | case1 =>
    intro c hc
    exact absurd hc (List.not_mem_nil c)
  | case2 w =>
    intro c hc
    exact Or.inl ⟨w, List.mem_singleton.mpr rfl, hc⟩
  | case3 w ws hne ih =>
    intro c hc
    obtain ⟨v, vs, rfl⟩ : ∃ v vs, ws = v :: vs := by
      rcases ws with _ | ⟨v, vs⟩
      · exact absurd rfl hne
      · exact ⟨v, vs, rfl⟩
    rw [joinWords] at hc
    case x_1 => simp
    rcases List.mem_append.mp hc with hc | hc
    · exact Or.inl ⟨w, List.mem_cons_self _ _, hc⟩
    · rcases List.mem_cons.mp hc with rfl | hc
      · exact Or.inr rfl
      · rcases ih c hc with ⟨t, ht, hct⟩ | h
        · exact Or.inl ⟨t, List.mem_cons_of_mem w ht, hct⟩
        · exact Or.inr h

/-- Every character of `text_cleaner`'s output is a character of the input
or a space. -/
theorem mem_text_cleaner (t : List Char) (c : Char) (hc : c ∈ text_cleaner t) :
    c ∈ t ∨ c = ' ' := by
  unfold text_cleaner at hc
  rcases mem_joinWords _ c hc with ⟨tok, htok, hctok⟩ | h
  · rcases mem_splitGo _ [] tok htok c hctok with h | h
    · exact absurd h (List.not_mem_nil c)
    · have h2 := mem_dropChapterGo false _ c h
      rcases mem_dropBracketsGo none _ c h2 with h3 | ⟨buf, hbuf, -⟩
      · exact mem_replaceDashes t c h3
      · simp at hbuf
  · exact Or.inr h

/-- Every entry `top_words` emits is a row label and value taken from the
corresponding column of its input, formatted. -/
theorem top_words_entry_from_column (df : DataFrame) (n j : ℕ) (s : List Char)
    (h : (j, s) ∈ top_words df n) :
    ∃ w v, (w, v) ∈ colPairs df j ∧ s = fmtEntry w v := by
  unfold top_words at h
  rcases List.mem_flatMap.mp h with ⟨i, -, hmem⟩
  rcases List.mem_map.mp hmem with ⟨s', hs', heq⟩
  injection heq with h1 h2
  subst h1
  subst h2
  rcases List.mem_map.mp hs' with ⟨q, hq, rfl⟩
  refine ⟨q.1, q.2, ?_, rfl⟩
  have hq' : q ∈ sortColumn (colPairs df i) := List.mem_of_mem_take hq
  exact ((sortColumn_perm (colPairs df i)).mem_iff).mp hq'

/-! ## Claim C7 -/

/-- Claim C7: the three functions of the repository's own code are
deterministic — equal inputs give equal outputs — and each only
rearranges, sorts or formats its inputs: `text_cleaner` emits only input
characters and spaces, every `top_words` entry is a formatted
(label, value) pair of the input column, and `word_topic` is exactly the
reshaping of its inputs into the matrix product with the given row
index. -/
theorem claim_C7 :
    (∀ t₁ t₂ : List Char, t₁ = t₂ → text_cleaner t₁ = text_cleaner t₂) ∧
      (∀ (t₁ s₁ : Mat) (w₁ : List (List Char)) (t₂ s₂ : Mat) (w₂ : List (List Char)),
        t₁ = t₂ → s₁ = s₂ → w₁ = w₂ → word_topic t₁ s₁ w₁ = word_topic t₂ s₂ w₂) ∧
      (∀ (df₁ df₂ : DataFrame) (n₁ n₂ : ℕ), df₁ = df₂ → n₁ = n₂ →
        top_words df₁ n₁ = top_words df₂ n₂) ∧
      (∀ (t : List Char) (c : Char), c ∈ text_cleaner t → c ∈ t ∨ c = ' ') ∧
      (∀ (df : DataFrame) (n j : ℕ) (s : List Char), (j, s) ∈ top_words df n →
        ∃ w v, (w, v) ∈ colPairs df j ∧ s = fmtEntry w v) ∧
      (∀ (t s : Mat) (w : List (List Char)),
        word_topic t s w = ⟨matMul (transpose t) s, w⟩) := by
  refine ⟨?_, ?_, ?_, mem_text_cleaner, top_words_entry_from_column, fun _ _ _ => rfl⟩
  · intro t₁ t₂ h
    rw [h]
  · intro t₁ s₁ w₁ t₂ s₂ w₂ h1 h2 h3
    rw [h1, h2, h3]
  · intro df₁ df₂ n₁ n₂ h1 h2
    rw [h1, h2]

-- Witness for claim C7 at concrete inputs.
unseal Rat.mul Rat.inv Rat.add Rat.sub in
theorem claim_C7_witness :
    text_cleaner ['a'] = text_cleaner ['a'] ∧
      ('a' ∈ (['a'] : List Char) ∨ 'a' = ' ') ∧
      ∃ w v, (w, v) ∈ colPairs ⟨[[(1 : ℚ)]], [['b']]⟩ 0 ∧ "b 1.0".toList = fmtEntry w v :=
  ⟨claim_C7.1 ['a'] ['a'] rfl,
    claim_C7.2.2.2.1 ['a'] 'a' (by decide),
    claim_C7.2.2.2.2.1 ⟨[[(1 : ℚ)]], [['b']]⟩ 1 0 "b 1.0".toList (by decide)⟩

end DescribingData

namespace DescribingData

/-! ## Claim C10 -/

/-- Writing back the value that was read is a no-op. -/
theorem set_getD_self : ∀ (l : List ℚ) (j : ℕ), l.set j (l.getD j 0) = l := by
  intro l
  induction l with
  | nil => intro j; rfl
  | cons a t ih =>
    intro j
    match j with
    | 0 => rfl
    | j + 1 =>
      show a :: t.set j (t.getD j 0) = a :: t
      rw [ih j]

theorem zipWith_set_roundtrip (j : ℕ) :
    ∀ (rows : Mat) (idx : List (List Char)), idx.length = rows.length →
      List.zipWith (fun r q => r.set j q.2) rows (idx.zip (rows.map fun r => r.getD j 0)) =
        rows := by
  intro rows
  induction rows with
  | nil =>
    intro idx _
    rfl
  | cons r rs ih =>
    intro idx hlen
    match idx with
    | [] => simp at hlen
    | w :: ws =>
      rw [List.map_cons, List.zip_cons_cons, List.zipWith_cons_cons, set_getD_self,
        ih ws (by simpa using hlen)]

/-- Writing a column's Series back into the DataFrame it was read from
changes nothing. -/
theorem setCol_colPairs (df : DataFrame) (j : ℕ)
    (hlen : df.index.length = df.rows.length) : setCol df j (colPairs df j) = df := by
  rcases df with ⟨rows, idx⟩
  show DataFrame.mk
      (List.zipWith (fun r q => r.set j q.2) rows (idx.zip (rows.map fun r => r.getD j 0)))
      idx = ⟨rows, idx⟩
  rw [zipWith_set_roundtrip j rows idx hlen]

/-- One iteration of the `top_words` loop returns the column's formatted
entries and leaves the DataFrame as it was: the sort is into a fresh copy
(`inplace=False`), so the column written back is the column read. -/
theorem topWordsColSt_state (df : DataFrame) (n j : ℕ)
    (hlen : df.index.length = df.rows.length) :
    topWordsColSt df n j = (topWordsCol df n j, df) := by
  have h2 : sortValues (colPairs df j) false false =
      (sortColumn (colPairs df j), colPairs df j) := rfl
  show (((sortValues (colPairs df j) false false).1.take n).map fun q => fmtEntry q.1 q.2,
      setCol df j (sortValues (colPairs df j) false false).2) = _
  rw [h2]
  show (topWordsCol df n j, setCol df j (colPairs df j)) = _
  rw [setCol_colPairs df j hlen]

/-- The `top_words` loop threads the DataFrame through unchanged. -/
theorem top_words_st_loop (df : DataFrame) (n : ℕ)
    (hlen : df.index.length = df.rows.length) :
    ∀ (js : List ℕ) (out : List (ℕ × List Char)),
      js.foldl (fun acc j =>
          let r := topWordsColSt acc.2 n j
          (acc.1 ++ r.1.map fun s => (j, s), r.2)) (out, df) =
        (out ++ js.flatMap fun j => (topWordsCol df n j).map fun s => (j, s), df) := by
  intro js
  induction js with
  | nil =>
    intro out
    simp
  | cons j t ih =>
    intro out
    rw [List.foldl_cons]
    show List.foldl
        (fun acc j =>
          let r := topWordsColSt acc.2 n j
          (acc.1 ++ List.map (fun s => (j, s)) r.1, r.2))
        (out ++ List.map (fun s => (j, s)) (topWordsColSt df n j).1,
          (topWordsColSt df n j).2) t = _
    rw [topWordsColSt_state df n j hlen]
    show List.foldl _ (out ++ List.map (fun s => (j, s)) (topWordsCol df n j), df) t = _
    rw [ih (out ++ List.map (fun s => (j, s)) (topWordsCol df n j)),
      List.flatMap_cons, List.append_assoc]

/-- Claim C10: `top_words` leaves its `components` argument unchanged —
each column is sorted into a fresh copy, never in place — and `word_topic`
leaves `tfidf`, `solution` and `wordlist` unchanged: in the state-passing
embedding, the post-call state of every input equals its pre-call
state. -/
theorem claim_C10 :
    (∀ (df : DataFrame) (n : ℕ), df.index.length = df.rows.length →
        top_words_st df n = (top_words df n, df)) ∧
      ∀ (tfidf solution : Mat) (wordlist : List (List Char)),
        word_topic_st tfidf solution wordlist =
          (word_topic tfidf solution wordlist, (tfidf, solution, wordlist)) := by
  refine ⟨?_, fun _ _ _ => rfl⟩
  intro df n hlen
  unfold top_words_st
  rw [top_words_st_loop df n hlen (List.range (dfNcols df)) [], List.nil_append]
  rfl

/-- Witness for claim C10 at a concrete one-column DataFrame. -/
theorem claim_C10_witness :
    top_words_st ⟨[[1]], [['a']]⟩ 1 = (top_words ⟨[[1]], [['a']]⟩ 1, ⟨[[1]], [['a']]⟩) :=
  claim_C10.1 ⟨[[1]], [['a']]⟩ 1 (by decide)

end DescribingData
